import Mathlib

/-!
Verification of the string-enum codec generator.

This file gives a shallow embedding of the two halves of the repository:

* the code the derive macros emit for labeled enums (src/lib.rs):
  the generated Display implementation (rendering), the generated
  FromStr implementation (parsing, with the optional case-insensitive
  comparison and the tiered error message), and the serde visitor
  emitted for custom-mode enums;
* the macro input parsing and shape validation (src/parse.rs):
  extraction of the per-variant string and alias annotations and the
  structural checks performed for labeled enums.

Enum variants are identified by their position in the declaration, so the
generated parser returns a variant index.
-/

namespace StringEnum

/-- Case-sensitivity policy of the generated comparisons.  The source picks it
at build time (the optional unicase dependency, see wrap_unicase in
src/lib.rs); we model the build-time choice as a parameter. -/
inductive CasePolicy where
  | sensitive
  | insensitive
deriving DecidableEq

/-- Folding of a single character: upper-case letters are mapped to their
lower-case counterpart. -/
def foldChar (c : Char) : Char :=
  if 65 ≤ c.toNat ∧ c.toNat ≤ 90 then Char.ofNat (c.toNat + 32) else c

/-- Model of the case folding performed by unicase wrappers: both sides of a
comparison are folded before being compared.  We model the folding as
lower-casing each character; stored strings are never modified (the fold is
applied to a fresh value at each comparison). -/
def foldCase (s : String) : String := String.mk (s.toList.map foldChar)

/-- Equality test used by the generated FromStr (src/lib.rs, wrap_unicase):
with the unicase feature each side is wrapped in a case folder before the
comparison, otherwise plain string equality is used. -/
def strEq (p : CasePolicy) (a b : String) : Bool :=
  match p with
  | .sensitive => a == b
  | .insensitive => foldCase a == foldCase b

/-- One variant of a validated labeled enum: its identifier, its canonical
string (the unwrapped string attribute) and its alias strings in declaration
order. -/
structure LabeledVariant where
  ident : String
  canonical : String
  aliases : List String
deriving DecidableEq

/-- The three build environments distinguished by the generated error code
(src/lib.rs, error_type and error in derive_labeled_deserialize): std,
alloc-only, and no allocation at all. -/
inductive Tier where
  | std
  | alloc
  | noAlloc
deriving DecidableEq

/-- The error value produced when no variant matches (src/lib.rs lines
270-282): a formatted message carrying the enum name and the input under
std or alloc, and a fixed literal without allocation. -/
def invalidError (t : Tier) (enumName input : String) : String :=
  match t with
  | .std => "invalid " ++ enumName ++ ": " ++ input
  | .alloc => "invalid " ++ enumName ++ ": " ++ input
  | .noAlloc => "invalid value"

/-- The chain of alias comparisons generated for one variant (src/lib.rs,
alias_match in derive_labeled_deserialize): each alias is compared in
declaration order. -/
def aliasMatch (p : CasePolicy) (s : String) : List String → Bool
  | [] => false
  | a :: rest => if strEq p s a then true else aliasMatch p s rest

/-- The sequence of generated if-tests of the emitted from_str
(src/lib.rs, match_variants in derive_labeled_deserialize): variants in
declaration order, canonical string first, then the aliases; the first
match returns.  The argument i is the index of the first variant of the
remaining list. -/
def fromStrAux (p : CasePolicy) (s : String) : List LabeledVariant → Nat → Option Nat
  | [], _ => none
  | v :: rest, i =>
    if strEq p s v.canonical then some i
    else if aliasMatch p s v.aliases then some i
    else fromStrAux p s rest (i + 1)

/-- The generated FromStr implementation for a labeled enum (src/lib.rs
lines 286-293): try every variant in declaration order and otherwise
produce the tier-dependent error. -/
def from_str (p : CasePolicy) (t : Tier) (enumName : String)
    (vs : List LabeledVariant) (s : String) : Except String Nat :=
  match fromStrAux p s vs 0 with
  | some i => .ok i
  | none => .error (invalidError t enumName s)

/-- Whether a single variant matches the input: its canonical string or one
of its aliases compares equal under the policy. -/
def matchVar (p : CasePolicy) (s : String) (v : LabeledVariant) : Bool :=
  strEq p s v.canonical || aliasMatch p s v.aliases

/-- The flat list of comparisons performed by the generated from_str, each
paired with the index of the variant it belongs to, starting at index i:
variants in declaration order, within a variant the canonical string first
and then the aliases in declaration order. -/
def testsFrom (i : Nat) : List LabeledVariant → List (Nat × String)
  | [] => []
  | v :: rest => (v.canonical :: v.aliases).map (fun s => (i, s)) ++ testsFrom (i + 1) rest

/-- The flat comparison list of a labeled enum, starting at variant 0. -/
def tests (vs : List LabeledVariant) : List (Nat × String) :=
  testsFrom 0 vs

/-- Model of expanding one Rust format-string literal with no arguments, as
the generated Display implementation does in write of the canonical string
(src/lib.rs line 190).  A doubled opening or closing brace renders as a
single brace character; any other use of a brace character starts a
placeholder or is ill-formed, in which case the generated code does not
print the literal as a fixed string (modelled as failure). -/
def renderFmtAux : List Char → Option (List Char)
  | [] => some []
  | c :: rest =>
    if c = '\x7b' then
      match rest with
      | [] => none
      | c2 :: rest2 => if c2 = '\x7b' then (renderFmtAux rest2).map (fun l => c :: l) else none
    else if c = '\x7d' then
      match rest with
      | [] => none
      | c2 :: rest2 => if c2 = '\x7d' then (renderFmtAux rest2).map (fun l => c :: l) else none
    else (renderFmtAux rest).map (fun l => c :: l)

/-- The generated Display implementation for one variant (src/lib.rs lines
186-192): the variant's canonical string is passed to write as a format
string, so it is format-expanded rather than copied. -/
def render (v : LabeledVariant) : Option String :=
  (renderFmtAux v.canonical.toList).map (fun l => String.mk l)

/-- True when the string contains no brace character, so that format
expansion is the identity on it. -/
def noBrace (s : String) : Bool :=
  s.toList.all (fun c => c != '\x7b' && c != '\x7d')

/-! ### Macro input model (src/parse.rs) -/

/-- The value of a name-value annotation, as far as the attribute parser
inspects it (syn Expr in get_string_literal_from_name_value_attr): a string
literal, some other kind of literal, or a non-literal expression. -/
inductive AttrValue where
  | strLit (s : String)
  | nonStrLit
  | nonLitExpr
deriving DecidableEq

/-- One annotation attached to a variant, following the three shapes of a
syn Meta: a bare path, a list form, or a name-value form. -/
inductive SynMeta where
  | path (name : String)
  | list (name : String)
  | nameValue (name : String) (value : AttrValue)
deriving DecidableEq

/-- The extracted annotations of one variant (src/parse.rs, VariantAttrs):
the canonical string, if any, and the aliases in declaration order. -/
structure VariantAttrs where
  string : Option String
  aliases : List String
deriving DecidableEq

/-- The shape of a variant's fields, following syn Fields: unit, named
fields, or unnamed fields. -/
inductive FieldsShape where
  | unit
  | named
  | unnamed
deriving DecidableEq

/-- A raw enum variant as the macro receives it: identifier, annotation list
and field shape. -/
structure RawVariant where
  ident : String
  attrs : List SynMeta
  fields : FieldsShape
deriving DecidableEq

/-- The body of the annotated declaration, following syn Data: an enum with
its variants, a struct, or a union. -/
inductive DeriveData where
  | enumData (variants : List RawVariant)
  | structData
  | unionData
deriving DecidableEq

/-- The whole annotated declaration: its identifier and its body. -/
structure DeriveInput where
  ident : String
  data : DeriveData
deriving DecidableEq

/-- A variant after attribute extraction (src/parse.rs, Variant). -/
structure Variant where
  ident : String
  attrs : VariantAttrs
  fields : FieldsShape
deriving DecidableEq

/-- The parsed input of the custom-mode macros (src/parse.rs, Input). -/
structure Input where
  ident : String
  variants : List Variant
deriving DecidableEq

/-- The parsed input of the labeled-mode macros (src/parse.rs,
LabeledStringInput). -/
structure LabeledStringInput where
  ident : String
  variants : List Variant
deriving DecidableEq

/-- src/parse.rs lines 58-80: extract the string literal of a name-value
annotation, failing with a message naming the attribute otherwise. -/
def get_string_literal_from_name_value_attr (attributeName : String)
    (value : AttrValue) : Except String String :=
  match value with
  | .strLit s => .ok s
  | _ => .error ("\"" ++ attributeName ++ "\" attribute must be a string literal")

/-- The loop body of parse_variant_attrs (src/parse.rs lines 82-98): walk the
annotation list, recording the value of each string annotation (overwriting
any previous one) and appending the value of each alias annotation; all
other annotations, including non-name-value forms, are skipped. -/
def pvaGo (acc : VariantAttrs) : List SynMeta → Except String VariantAttrs
  | [] => .ok acc
  | m :: rest =>
    match m with
    | .nameValue n v =>
      if n = "string" then
        match get_string_literal_from_name_value_attr "string" v with
        | .ok s => pvaGo { acc with string := some s } rest
        | .error e => .error e
      else if n = "alias" then
        match get_string_literal_from_name_value_attr "alias" v with
        | .ok s => pvaGo { acc with aliases := acc.aliases ++ [s] } rest
        | .error e => .error e
      else pvaGo acc rest
    | _ => pvaGo acc rest

/-- src/parse.rs lines 82-98: extract the annotations of one variant,
starting from the empty record. -/
def parse_variant_attrs (attrs : List SynMeta) : Except String VariantAttrs :=
  pvaGo ⟨none, []⟩ attrs

/-- The per-variant mapping inside Input parsing (src/parse.rs lines
109-120): parse each variant's annotations, stopping at the first error, as
collecting into a Result does. -/
def parseVariants : List RawVariant → Except String (List Variant)
  | [] => .ok []
  | v :: rest =>
    match parse_variant_attrs v.attrs with
    | .error e => .error e
    | .ok attrs =>
      match parseVariants rest with
      | .error e => .error e
      | .ok ws => .ok (⟨v.ident, attrs, v.fields⟩ :: ws)

/-- The Parse implementation for Input (src/parse.rs lines 100-131): reject
non-enums, extract every variant's annotations, then reject enums without
variants. -/
def Input.parse (d : DeriveInput) : Except String Input :=
  match d.data with
  | .enumData vs =>
    match parseVariants vs with
    | .error e => .error e
    | .ok ws =>
      if ws.isEmpty then .error "enum must have at least one variant"
      else .ok ⟨d.ident, ws⟩
  | _ => .error "input must be an enum"

/-- The Parse implementation for LabeledStringInput (src/parse.rs lines
133-161): run Input parsing, then require every variant to be unit-shaped,
then require every variant to carry a string annotation. -/
def LabeledStringInput.parse (d : DeriveInput) : Except String LabeledStringInput :=
  match Input.parse d with
  | .error e => .error e
  | .ok inp =>
    if inp.variants.all (fun v =>
        match v.fields with
        | .unit => true
        | _ => false) then
      if inp.variants.all (fun v => v.attrs.string.isSome) then
        .ok ⟨inp.ident, inp.variants⟩
      else .error "all variants must have \"string\" attribute"
    else .error "all variants must be a unit variant"

/-! ### Custom-mode serde visitor (src/lib.rs, derive_deserialize) -/

/-- The serde invalid-value error raised by the generated visitor: it carries
the unexpected input string and the expecting description produced by the
visitor. -/
structure SerdeInvalidValue where
  unexpected : String
  expecting : String
deriving DecidableEq

/-- The expecting description of the generated visitor (src/lib.rs lines
159-161): a fixed phrase around the enum name. -/
def expecting_msg (enumName : String) : String :=
  "a valid " ++ enumName ++ " string value"

/-- The visit_str method of the generated visitor (src/lib.rs lines
163-168): apply the caller-supplied FromStr implementation and translate any
failure into the framework's invalid-value error built from the original
input and the visitor's expecting description. -/
def visit_str {ε α : Type} (enumName : String) (fromStrFn : String → Except ε α)
    (v : String) : Except SerdeInvalidValue α :=
  match fromStrFn v with
  | .ok x => .ok x
  | .error _ => .error ⟨v, expecting_msg enumName⟩

/-- The generated Deserialize implementation (src/lib.rs lines 171-175)
asks the framework for a string token via deserialize_str and hands it to
the visitor; the token argument models the delivered string. -/
def deserialize_custom {ε α : Type} (enumName : String)
    (fromStrFn : String → Except ε α) (token : String) : Except SerdeInvalidValue α :=
  visit_str enumName fromStrFn token

/-! ### Specification-side vocabulary for the attribute parser -/

/-- Whether an annotation value is a string literal. -/
def isStrLit : AttrValue → Bool
  | .strLit _ => true
  | _ => false

/-- The name of an offending annotation: a name-value annotation named
string or alias whose value is not a string literal. -/
def badName (m : SynMeta) : Option String :=
  match m with
  | .nameValue n v =>
    match v with
    | .strLit _ => none
    | _ => if n = "string" then some n else if n = "alias" then some n else none
  | _ => none

/-- An annotation is acceptable to the attribute parser when it is not an
offending string or alias annotation. -/
def stringAliasOk (m : SynMeta) : Bool :=
  (badName m).isNone

/-- The first offending annotation name of a list, if any. -/
def firstBad : List SynMeta → Option String
  | [] => none
  | m :: rest =>
    match badName m with
    | some n => some n
    | none => firstBad rest

/-- The value of the last string annotation of the list, if any. -/
def lastString : List SynMeta → Option String
  | [] => none
  | m :: rest =>
    match lastString rest with
    | some s => some s
    | none =>
      match m with
      | .nameValue n (.strLit s) => if n = "string" then some s else none
      | _ => none

/-- The values of the alias annotations of the list, in declaration order. -/
def aliasValues : List SynMeta → List String
  | [] => []
  | m :: rest =>
    match m with
    | .nameValue n (.strLit s) => if n = "alias" then s :: aliasValues rest else aliasValues rest
    | _ => aliasValues rest

/-- Whether a raw variant carries a well-formed canonical-string annotation:
a name-value annotation named string with a string-literal value. -/
def isCanonicalAttr (m : SynMeta) : Bool :=
  match m with
  | .nameValue n (.strLit _) => n == "string"
  | _ => false

/-- Whether a raw variant carries any well-formed canonical-string
annotation. -/
def rawHasCanonical (v : RawVariant) : Bool :=
  v.attrs.any isCanonicalAttr

end StringEnum

namespace StringEnum

/-! ### Lemmas about the generated matcher -/

lemma strEq_refl (p : CasePolicy) (a : String) : strEq p a a = true := by
  cases p <;> simp [strEq]

lemma strEq_symm (p : CasePolicy) (a b : String) : strEq p a b = strEq p b a := by
  cases p <;>
    simp only [strEq] <;>
    rw [Bool.eq_iff_iff, beq_iff_eq, beq_iff_eq] <;>
    exact eq_comm

lemma aliasMatch_of_mem (p : CasePolicy) (s a : String) (as : List String)
    (ha : a ∈ as) (h : strEq p s a = true) : aliasMatch p s as = true := by
  induction as with
  | nil => cases ha
  | cons b rest ih =>
    simp only [aliasMatch]
    by_cases hb : strEq p s b = true
    · simp [hb]
    · simp only [hb, if_false]
      rcases List.mem_cons.mp ha with h1 | h1
      · exact absurd (h1 ▸ h) hb
      · simp only [Bool.false_eq_true, if_false]
        exact ih h1

lemma find?_map_aliases (p : CasePolicy) (s : String) (l : List String) (i : Nat)
    (t : List (Nat × String)) :
    ((l.map (fun a => (i, a)) ++ t).find? (fun pr => strEq p s pr.2)).map Prod.fst =
      if aliasMatch p s l then some i
      else (t.find? (fun pr => strEq p s pr.2)).map Prod.fst := by
  induction l with
  | nil => simp [aliasMatch]
  | cons a rest ih =>
    simp only [List.map_cons, List.cons_append, aliasMatch]
    by_cases ha : strEq p s a = true
    · rw [List.find?_cons_of_pos _ (by simpa using ha)]
      simp [ha]
    · rw [List.find?_cons_of_neg _ (by simpa using ha)]
      simp only [ha, Bool.false_eq_true, if_false]
      exact ih

lemma fromStrAux_eq_find (p : CasePolicy) (s : String) :
    ∀ (vs : List LabeledVariant) (i : Nat),
      fromStrAux p s vs i =
        ((testsFrom i vs).find? (fun pr => strEq p s pr.2)).map Prod.fst := by
  intro vs
  induction vs with
  | nil => intro i; simp [fromStrAux, testsFrom]
  | cons v rest ih =>
    intro i
    simp only [fromStrAux, testsFrom, List.map_cons, List.cons_append]
    by_cases hc : strEq p s v.canonical = true
    · rw [List.find?_cons_of_pos _ (by simpa using hc)]
      simp [hc]
    · rw [List.find?_cons_of_neg _ (by simpa using hc)]
      rw [find?_map_aliases]
      by_cases ha : aliasMatch p s v.aliases = true
      · simp [hc, ha]
      · simp [hc, ha, ih]

lemma from_str_eq_find (p : CasePolicy) (t : Tier) (name : String)
    (vs : List LabeledVariant) (s : String) :
    from_str p t name vs s =
      match (tests vs).find? (fun pr => strEq p s pr.2) with
      | some pr => .ok pr.1
      | none => .error (invalidError t name s) := by
  unfold from_str tests
  rw [fromStrAux_eq_find]
  cases h : (testsFrom 0 vs).find? (fun pr => strEq p s pr.2) <;> simp

lemma fromStrAux_first (p : CasePolicy) (s : String) :
    ∀ (vs : List LabeledVariant) (i j : Nat) (vi : LabeledVariant),
      vs[i]? = some vi → matchVar p s vi = true →
      (∀ vk ∈ vs.take i, matchVar p s vk = false) →
      fromStrAux p s vs j = some (j + i) := by
  intro vs
  induction vs with
  | nil => intro i j vi hget hm he; simp at hget
  | cons v rest ih =>
    intro i j vi hget hmatch hearlier
    cases i with
    | zero =>
      rw [List.getElem?_cons_zero] at hget
      injection hget with hv
      subst hv
      rw [matchVar, Bool.or_eq_true] at hmatch
      rw [fromStrAux]
      rcases hmatch with hc | ha
      · simp [hc]
      · by_cases hc2 : strEq p s v.canonical = true
        · simp [hc2]
        · simp [hc2, ha]
    | succ n =>
      rw [List.getElem?_cons_succ] at hget
      have hv : matchVar p s v = false := by
        apply hearlier
        simp [List.take_succ_cons]
      have hrest : ∀ vk ∈ rest.take n, matchVar p s vk = false := by
        intro vk hk
        apply hearlier
        simp [List.take_succ_cons, hk]
      have hrec := ih n (j + 1) vi hget hmatch hrest
      rw [matchVar, Bool.or_eq_false_iff] at hv
      rw [fromStrAux]
      simp only [hv.1, hv.2, Bool.false_eq_true, if_false]
      rw [hrec]
      congr 1
      omega

lemma from_str_first (p : CasePolicy) (t : Tier) (name : String)
    (vs : List LabeledVariant) (s : String) (i : Nat) (vi : LabeledVariant)
    (hget : vs[i]? = some vi) (hmatch : matchVar p s vi = true)
    (hearlier : ∀ vk ∈ vs.take i, matchVar p s vk = false) :
    from_str p t name vs s = .ok i := by
  unfold from_str
  rw [fromStrAux_first p s vs i 0 vi hget hmatch hearlier]
  simp

lemma renderFmtAux_noBrace : ∀ (l : List Char), (∀ c ∈ l, c ≠ '\x7b' ∧ c ≠ '\x7d') →
    renderFmtAux l = some l := by
  intro l
  induction l with
  | nil => intro h; rfl
  | cons c rest ih =>
    intro h
    have hc := h c (List.mem_cons_self c rest)
    have hrest : ∀ c2 ∈ rest, c2 ≠ '\x7b' ∧ c2 ≠ '\x7d' :=
      fun c2 hcm => h c2 (List.mem_cons_of_mem _ hcm)
    rw [renderFmtAux.eq_def]
    simp only [if_neg hc.1, if_neg hc.2, ih hrest]
    rfl

lemma render_noBrace (v : LabeledVariant) (h : noBrace v.canonical = true) :
    render v = some v.canonical := by
  rw [noBrace, List.all_eq_true] at h
  rw [render, renderFmtAux_noBrace]
  · rfl
  · intro c hcm
    have := h c hcm
    simp only [Bool.and_eq_true, bne_iff_ne] at this
    exact this

end StringEnum

namespace StringEnum

/-! ### Lemmas about the attribute parser and shape validation -/

lemma badName_of_ok (m : SynMeta) (h : stringAliasOk m = true) : badName m = none := by
  rw [stringAliasOk, Option.isNone_iff_eq_none] at h
  exact h

lemma pvaGo_ok : ∀ (attrs : List SynMeta) (acc : VariantAttrs),
    (∀ m ∈ attrs, stringAliasOk m = true) →
    pvaGo acc attrs =
      .ok ⟨match lastString attrs with
           | some s => some s
           | none => acc.string,
           acc.aliases ++ aliasValues attrs⟩ := by
  intro attrs
  induction attrs with
  | nil => intro acc h; simp [pvaGo, lastString, aliasValues]
  | cons m rest ih =>
    intro acc h
    have hm := badName_of_ok m (h m (List.mem_cons_self m rest))
    have hrest : ∀ m2 ∈ rest, stringAliasOk m2 = true :=
      fun m2 hm2 => h m2 (List.mem_cons_of_mem _ hm2)
    cases m with
    | path n =>
      simp only [pvaGo]
      rw [ih acc hrest]
      simp only [lastString, aliasValues]
      cases lastString rest <;> simp
    | list n =>
      simp only [pvaGo]
      rw [ih acc hrest]
      simp only [lastString, aliasValues]
      cases lastString rest <;> simp
    | nameValue n v =>
      by_cases hs : n = "string"
      · subst hs
        cases v with
        | strLit s =>
          simp only [pvaGo, get_string_literal_from_name_value_attr, if_true, reduceIte]
          rw [ih _ hrest]
          simp only [lastString, aliasValues]
          cases lastString rest <;> simp
        | nonStrLit => simp [badName] at hm
        | nonLitExpr => simp [badName] at hm
      · by_cases ha : n = "alias"
        · subst ha
          cases v with
          | strLit s =>
            simp only [pvaGo, if_neg hs, get_string_literal_from_name_value_attr, reduceIte]
            rw [ih _ hrest]
            simp only [lastString, aliasValues]
            cases lastString rest <;> simp [hs]
          | nonStrLit => simp [badName, hs] at hm
          | nonLitExpr => simp [badName, hs] at hm
        · simp only [pvaGo, if_neg hs, if_neg ha]
          rw [ih acc hrest]
          simp only [lastString, aliasValues]
          cases v with
          | strLit s => cases lastString rest <;> simp [hs, ha]
          | nonStrLit => cases lastString rest <;> simp
          | nonLitExpr => cases lastString rest <;> simp

lemma parse_variant_attrs_ok (attrs : List SynMeta)
    (h : ∀ m ∈ attrs, stringAliasOk m = true) :
    parse_variant_attrs attrs = .ok ⟨lastString attrs, aliasValues attrs⟩ := by
  rw [parse_variant_attrs, pvaGo_ok attrs _ h]
  cases lastString attrs <;> simp

lemma pvaGo_err : ∀ (attrs : List SynMeta) (acc : VariantAttrs) (n : String),
    firstBad attrs = some n →
    pvaGo acc attrs = .error ("\"" ++ n ++ "\" attribute must be a string literal") := by
  intro attrs
  induction attrs with
  | nil => intro acc n h; simp [firstBad] at h
  | cons m rest ih =>
    intro acc n h
    rw [firstBad] at h
    cases m with
    | path n2 =>
      simp only [badName] at h
      simp only [pvaGo]
      exact ih acc n h
    | list n2 =>
      simp only [badName] at h
      simp only [pvaGo]
      exact ih acc n h
    | nameValue n2 v =>
      cases v with
      | strLit s =>
        simp only [badName] at h
        by_cases hs : n2 = "string"
        · subst hs
          simp only [pvaGo, get_string_literal_from_name_value_attr, reduceIte]
          exact ih _ n h
        · by_cases ha : n2 = "alias"
          · subst ha
            simp only [pvaGo, if_neg hs, get_string_literal_from_name_value_attr, reduceIte]
            exact ih _ n h
          · simp only [pvaGo, if_neg hs, if_neg ha]
            exact ih acc n h
      | nonStrLit =>
        by_cases hs : n2 = "string"
        · subst hs
          simp only [badName, reduceIte] at h
          injection h with h2
          subst h2
          simp only [pvaGo, get_string_literal_from_name_value_attr, reduceIte]
        · by_cases ha : n2 = "alias"
          · subst ha
            simp only [badName, if_neg hs, reduceIte] at h
            injection h with h2
            subst h2
            simp only [pvaGo, if_neg hs, get_string_literal_from_name_value_attr, reduceIte]
          · simp only [badName, if_neg hs, if_neg ha] at h
            simp only [pvaGo, if_neg hs, if_neg ha]
            exact ih acc n h
      | nonLitExpr =>
        by_cases hs : n2 = "string"
        · subst hs
          simp only [badName, reduceIte] at h
          injection h with h2
          subst h2
          simp only [pvaGo, get_string_literal_from_name_value_attr, reduceIte]
        · by_cases ha : n2 = "alias"
          · subst ha
            simp only [badName, if_neg hs, reduceIte] at h
            injection h with h2
            subst h2
            simp only [pvaGo, if_neg hs, get_string_literal_from_name_value_attr, reduceIte]
          · simp only [badName, if_neg hs, if_neg ha] at h
            simp only [pvaGo, if_neg hs, if_neg ha]
            exact ih acc n h

end StringEnum

namespace StringEnum

lemma badName_some_spec (m : SynMeta) (n : String) (h : badName m = some n) :
    (n = "string" ∨ n = "alias") ∧
      ∃ v, m = SynMeta.nameValue n v ∧ isStrLit v = false := by
  cases m with
  | path n2 => simp [badName] at h
  | list n2 => simp [badName] at h
  | nameValue n2 v =>
    cases v with
    | strLit s => simp [badName] at h
    | nonStrLit =>
      by_cases hs : n2 = "string"
      · subst hs
        simp only [badName, reduceIte] at h
        injection h with h2
        subst h2
        exact ⟨Or.inl rfl, AttrValue.nonStrLit, rfl, rfl⟩
      · by_cases ha : n2 = "alias"
        · subst ha
          simp only [badName, if_neg hs, reduceIte] at h
          injection h with h2
          subst h2
          exact ⟨Or.inr rfl, AttrValue.nonStrLit, rfl, rfl⟩
        · simp [badName, hs, ha] at h
    | nonLitExpr =>
      by_cases hs : n2 = "string"
      · subst hs
        simp only [badName, reduceIte] at h
        injection h with h2
        subst h2
        exact ⟨Or.inl rfl, AttrValue.nonLitExpr, rfl, rfl⟩
      · by_cases ha : n2 = "alias"
        · subst ha
          simp only [badName, if_neg hs, reduceIte] at h
          injection h with h2
          subst h2
          exact ⟨Or.inr rfl, AttrValue.nonLitExpr, rfl, rfl⟩
        · simp [badName, hs, ha] at h

lemma badName_of_bad (n : String) (v : AttrValue)
    (hn : n = "string" ∨ n = "alias") (hv : isStrLit v = false) :
    badName (SynMeta.nameValue n v) = some n := by
  cases v with
  | strLit s => simp [isStrLit] at hv
  | nonStrLit => rcases hn with h | h <;> subst h <;> simp [badName]
  | nonLitExpr => rcases hn with h | h <;> subst h <;> simp [badName]

lemma firstBad_isSome_of_mem : ∀ (attrs : List SynMeta) (m : SynMeta) (n : String),
    m ∈ attrs → badName m = some n → ∃ n2, firstBad attrs = some n2 := by
  intro attrs
  induction attrs with
  | nil => intro m n hm; cases hm
  | cons m2 rest ih =>
    intro m n hm hb
    rw [firstBad]
    cases hb2 : badName m2 with
    | some n3 => exact ⟨n3, rfl⟩
    | none =>
      rcases List.mem_cons.mp hm with h1 | h1
      · subst h1; rw [hb2] at hb; cases hb
      · exact ih m n h1 hb

lemma firstBad_mem : ∀ (attrs : List SynMeta) (n : String),
    firstBad attrs = some n → ∃ m ∈ attrs, badName m = some n := by
  intro attrs
  induction attrs with
  | nil => intro n h; simp [firstBad] at h
  | cons m rest ih =>
    intro n h
    rw [firstBad] at h
    cases hb : badName m with
    | some n2 =>
      rw [hb] at h
      injection h with h2
      subst h2
      exact ⟨m, List.mem_cons_self m rest, hb⟩
    | none =>
      rw [hb] at h
      obtain ⟨m2, hm2, hb2⟩ := ih n h
      exact ⟨m2, List.mem_cons_of_mem _ hm2, hb2⟩

lemma pvaGo_string_none : ∀ (attrs : List SynMeta) (acc r : VariantAttrs),
    (∀ m ∈ attrs, isCanonicalAttr m = false) → pvaGo acc attrs = .ok r →
    r.string = acc.string := by
  intro attrs
  induction attrs with
  | nil =>
    intro acc r h hp
    rw [pvaGo] at hp
    injection hp with hp
    subst hp
    rfl
  | cons m rest ih =>
    intro acc r h hp
    have hm := h m (List.mem_cons_self m rest)
    have hrest : ∀ m2 ∈ rest, isCanonicalAttr m2 = false :=
      fun m2 hm2 => h m2 (List.mem_cons_of_mem _ hm2)
    cases m with
    | path n =>
      simp only [pvaGo] at hp
      exact ih acc r hrest hp
    | list n =>
      simp only [pvaGo] at hp
      exact ih acc r hrest hp
    | nameValue n v =>
      by_cases hs : n = "string"
      · subst hs
        cases v with
        | strLit s => simp [isCanonicalAttr] at hm
        | nonStrLit =>
          simp only [pvaGo, get_string_literal_from_name_value_attr, reduceIte] at hp
          exact Except.noConfusion hp
        | nonLitExpr =>
          simp only [pvaGo, get_string_literal_from_name_value_attr, reduceIte] at hp
          exact Except.noConfusion hp
      · by_cases ha : n = "alias"
        · subst ha
          cases v with
          | strLit s =>
            simp only [pvaGo, if_neg hs, get_string_literal_from_name_value_attr,
              reduceIte] at hp
            exact ih { string := acc.string, aliases := acc.aliases ++ [s] } r hrest hp
          | nonStrLit =>
            simp only [pvaGo, if_neg hs, get_string_literal_from_name_value_attr,
              reduceIte] at hp
            exact Except.noConfusion hp
          | nonLitExpr =>
            simp only [pvaGo, if_neg hs, get_string_literal_from_name_value_attr,
              reduceIte] at hp
            exact Except.noConfusion hp
        · simp only [pvaGo, if_neg hs, if_neg ha] at hp
          exact ih acc r hrest hp

lemma lastString_append_string (l : List SynMeta) (s : String) :
    lastString (l ++ [SynMeta.nameValue "string" (AttrValue.strLit s)]) = some s := by
  induction l with
  | nil => simp [lastString]
  | cons m rest ih =>
    have hstep : lastString (m :: (rest ++ [SynMeta.nameValue "string" (AttrValue.strLit s)])) =
        match lastString (rest ++ [SynMeta.nameValue "string" (AttrValue.strLit s)]) with
        | some t => some t
        | none =>
          match m with
          | SynMeta.nameValue n (AttrValue.strLit s2) => if n = "string" then some s2 else none
          | _ => none := rfl
    rw [List.cons_append, hstep, ih]

end StringEnum

namespace StringEnum

lemma parseVariants_mem : ∀ (vs : List RawVariant) (ws : List Variant),
    parseVariants vs = .ok ws → ∀ v ∈ vs, ∃ w ∈ ws,
      w.ident = v.ident ∧ w.fields = v.fields ∧
        parse_variant_attrs v.attrs = .ok w.attrs := by
  intro vs
  induction vs with
  | nil => intro ws h v hv; cases hv
  | cons v0 rest ih =>
    intro ws h v hv
    simp only [parseVariants] at h
    split at h
    next e heq => exact Except.noConfusion h
    next attrs heq =>
      split at h
      next e2 heq2 => exact Except.noConfusion h
      next ws2 heq2 =>
        injection h with h2
        subst h2
        rcases List.mem_cons.mp hv with h1 | h1
        · subst h1
          exact ⟨⟨v.ident, attrs, v.fields⟩, List.mem_cons_self _ _, rfl, rfl, heq⟩
        · obtain ⟨w, hw, hprops⟩ := ih ws2 heq2 v h1
          exact ⟨w, List.mem_cons_of_mem _ hw, hprops⟩

lemma input_parse_ok (d : DeriveInput) (inp : Input) (h : Input.parse d = .ok inp) :
    ∃ vs, d.data = .enumData vs ∧ parseVariants vs = .ok inp.variants ∧
      inp.variants ≠ [] := by
  rw [Input.parse] at h
  split at h
  next vs heq =>
    split at h
    next e heq2 => exact Except.noConfusion h
    next ws heq2 =>
      split at h
      next hemp => exact Except.noConfusion h
      next hemp =>
        injection h with h2
        subst h2
        refine ⟨vs, heq, heq2, ?_⟩
        simpa using hemp
  all_goals exact Except.noConfusion h

lemma labeled_parse_ok (d : DeriveInput) (out : LabeledStringInput)
    (h : LabeledStringInput.parse d = .ok out) :
    ∃ vs, d.data = .enumData vs ∧ parseVariants vs = .ok out.variants ∧
      out.variants ≠ [] ∧ (∀ w ∈ out.variants, w.fields = FieldsShape.unit) ∧
      (∀ w ∈ out.variants, w.attrs.string.isSome = true) := by
  rw [LabeledStringInput.parse] at h
  split at h
  next e heq => exact Except.noConfusion h
  next inp heq =>
    split at h
    next hunit =>
      split at h
      next hsome =>
        injection h with h2
        subst h2
        obtain ⟨vs, hd, hpv, hne⟩ := input_parse_ok d inp heq
        refine ⟨vs, hd, hpv, hne, ?_, ?_⟩
        · intro w hw
          have hall := (List.all_eq_true.mp hunit) w hw
          cases hf : w.fields
          · exact rfl
          · rw [hf] at hall; exact absurd hall (by simp)
          · rw [hf] at hall; exact absurd hall (by simp)
        · intro w hw
          exact (List.all_eq_true.mp hsome) w hw
      next hsome => exact Except.noConfusion h
    next hunit => exact Except.noConfusion h

end StringEnum

namespace StringEnum

lemma aliasValues_append_string (l : List SynMeta) (s : String) :
    aliasValues (l ++ [SynMeta.nameValue "string" (AttrValue.strLit s)]) = aliasValues l := by
  induction l with
  | nil => simp [aliasValues]
  | cons m rest ih =>
    rw [List.cons_append]
    cases m with
    | path n =>
      simp only [aliasValues]
      exact ih
    | list n =>
      simp only [aliasValues]
      exact ih
    | nameValue n v =>
      cases v with
      | strLit s2 =>
        simp only [aliasValues]
        rw [ih]
      | nonStrLit =>
        simp only [aliasValues]
        exact ih
      | nonLitExpr =>
        simp only [aliasValues]
        exact ih

/-! ### Claim theorems -/

/-- C1, counterexample: in an enum whose two variants both carry the
canonical string "a" (which labeled-mode generation accepts), rendering the
second variant yields "a", but parsing "a" returns the first variant, so
parsing the rendered string of the second variant does not return it. -/
theorem labeled_round_trip_counterexample :
    ([⟨"A", "a", []⟩, ⟨"B", "a", []⟩] : List LabeledVariant)[1]? = some ⟨"B", "a", []⟩ ∧
    render ⟨"B", "a", []⟩ = some "a" ∧
    from_str .sensitive .std "E" [⟨"A", "a", []⟩, ⟨"B", "a", []⟩] "a" = .ok 0 ∧
    from_str .sensitive .std "E" [⟨"A", "a", []⟩, ⟨"B", "a", []⟩] "a" ≠ .ok 1 := by
  refine ⟨rfl, rfl, rfl, fun h => ?_⟩
  rw [show from_str .sensitive .std "E" [⟨"A", "a", []⟩, ⟨"B", "a", []⟩] "a" = Except.ok 0
    from rfl] at h
  injection h with h2
  exact absurd h2 (by decide)

/-- C1 (amended): for every labeled enum and every variant whose canonical
string contains no brace character and is matched by no earlier-declared
variant's canonical string or alias under the case policy, parsing the
rendered string returns that variant. -/
theorem labeled_round_trip (p : CasePolicy) (t : Tier) (name : String)
    (vs : List LabeledVariant) (i : Nat) (vi : LabeledVariant)
    (hget : vs[i]? = some vi)
    (hbrace : noBrace vi.canonical = true)
    (hearlier : ∀ vk ∈ vs.take i, matchVar p vi.canonical vk = false) :
    render vi = some vi.canonical ∧ from_str p t name vs vi.canonical = .ok i := by
  refine ⟨render_noBrace vi hbrace, ?_⟩
  refine from_str_first p t name vs vi.canonical i vi hget ?_ hearlier
  rw [matchVar, strEq_refl]
  rfl

/-- C1 witness: in the enum [A("a"), B("b")], parsing the rendered string of
variant 1 returns variant 1. -/
theorem labeled_round_trip_witness :
    render ⟨"B", "b", []⟩ = some "b" ∧
    from_str .sensitive .std "E" [⟨"A", "a", []⟩, ⟨"B", "b", []⟩] "b" = .ok 1 :=
  labeled_round_trip .sensitive .std "E" [⟨"A", "a", []⟩, ⟨"B", "b", []⟩] 1 ⟨"B", "b", []⟩
    rfl (by decide) (by decide)

/-- C2, counterexample: in the enum [A("a", alias "x"), B("x"), C("c", alias "x")],
the input "x" equals B's canonical string (index 1) and C's alias
(index 2), with 1 no later than 2, yet parsing returns variant 0, whose
alias "x" is tested first; the claimed precedence of the canonical owner
fails. -/
theorem parse_precedence_counterexample :
    ([⟨"A", "a", ["x"]⟩, ⟨"B", "x", []⟩, ⟨"C", "c", ["x"]⟩] : List LabeledVariant)[1]? =
        some ⟨"B", "x", []⟩ ∧
    ([⟨"A", "a", ["x"]⟩, ⟨"B", "x", []⟩, ⟨"C", "c", ["x"]⟩] : List LabeledVariant)[2]? =
        some ⟨"C", "c", ["x"]⟩ ∧
    strEq .sensitive "x" "x" = true ∧
    "x" ∈ ["x"] ∧
    from_str .sensitive .std "E" [⟨"A", "a", ["x"]⟩, ⟨"B", "x", []⟩, ⟨"C", "c", ["x"]⟩] "x" =
      .ok 0 ∧
    from_str .sensitive .std "E" [⟨"A", "a", ["x"]⟩, ⟨"B", "x", []⟩, ⟨"C", "c", ["x"]⟩] "x" ≠
      .ok 1 := by
  refine ⟨rfl, rfl, rfl, by simp, rfl, fun h => ?_⟩
  rw [show from_str .sensitive .std "E"
      [⟨"A", "a", ["x"]⟩, ⟨"B", "x", []⟩, ⟨"C", "c", ["x"]⟩] "x" = Except.ok 0 from rfl] at h
  injection h with h2
  exact absurd h2 (by decide)

/-- C2 (amended): the generated parser performs exactly the comparisons of
the flat test list — variants in declaration order, canonical string before
aliases, aliases in declaration order — and returns the variant owning the
first matching comparison; consequently, when the input matches variant i's
canonical string and variant j's alias with i no later than j, and no
variant declared before i matches at all, variant i is returned. -/
theorem parse_order_and_precedence :
    (∀ (p : CasePolicy) (t : Tier) (name : String) (vs : List LabeledVariant) (s : String),
      from_str p t name vs s =
        match (tests vs).find? (fun pr => strEq p s pr.2) with
        | some pr => .ok pr.1
        | none => .error (invalidError t name s)) ∧
    (∀ (p : CasePolicy) (t : Tier) (name : String) (vs : List LabeledVariant) (s : String)
      (i j : Nat) (vi vj : LabeledVariant),
      vs[i]? = some vi → vs[j]? = some vj →
      strEq p s vi.canonical = true →
      (∃ a ∈ vj.aliases, strEq p s a = true) →
      i ≤ j →
      (∀ vk ∈ vs.take i, matchVar p s vk = false) →
      from_str p t name vs s = .ok i) := by
  constructor
  · exact from_str_eq_find
  · intro p t name vs s i j vi vj hi hj hc ha hij hearlier
    refine from_str_first p t name vs s i vi hi ?_ hearlier
    rw [matchVar, hc]
    rfl

/-- C2 witness: in the enum [A("x"), B("b", alias "x")], the input "x"
matches A's canonical string and B's alias, A is declared first, and
parsing returns A. -/
theorem parse_order_and_precedence_witness :
    from_str .sensitive .std "E" [⟨"A", "x", []⟩, ⟨"B", "b", ["x"]⟩] "x" = .ok 0 :=
  parse_order_and_precedence.2 .sensitive .std "E" [⟨"A", "x", []⟩, ⟨"B", "b", ["x"]⟩] "x"
    0 1 ⟨"A", "x", []⟩ ⟨"B", "b", ["x"]⟩ rfl rfl rfl ⟨"x", by simp, rfl⟩ (by decide) (by decide)

/-- C3, counterexample: in the enum [A("A"), B("a")] under the
case-insensitive policy, the input "a" is a case folding of B's canonical
string (index 1), yet parsing returns variant 0, whose canonical string "A"
folds to the same string. -/
theorem case_policy_counterexample :
    ([⟨"A", "A", []⟩, ⟨"B", "a", []⟩] : List LabeledVariant)[1]? = some ⟨"B", "a", []⟩ ∧
    foldCase "a" = foldCase "a" ∧
    from_str .insensitive .std "E" [⟨"A", "A", []⟩, ⟨"B", "a", []⟩] "a" = .ok 0 ∧
    from_str .insensitive .std "E" [⟨"A", "A", []⟩, ⟨"B", "a", []⟩] "a" ≠ .ok 1 := by
  refine ⟨rfl, rfl, rfl, fun h => ?_⟩
  rw [show from_str .insensitive .std "E" [⟨"A", "A", []⟩, ⟨"B", "a", []⟩] "a" = Except.ok 0
    from rfl] at h
  injection h with h2
  exact absurd h2 (by decide)

/-- C3 (amended): the folding comparison is symmetric — it is applied to
both sides, and stored strings, being inputs of a pure function, are never
modified; under the case-insensitive policy an input that is a case folding
of a variant's canonical string or alias parses to that variant provided no
earlier-declared variant also matches the input; under the case-sensitive
policy an input that differs from every canonical string and alias fails to
parse. -/
theorem case_policy :
    (∀ (p : CasePolicy) (a b : String), strEq p a b = strEq p b a) ∧
    (∀ (t : Tier) (name : String) (vs : List LabeledVariant) (s u : String)
      (i : Nat) (vi : LabeledVariant),
      vs[i]? = some vi →
      (u = vi.canonical ∨ u ∈ vi.aliases) →
      foldCase s = foldCase u →
      (∀ vk ∈ vs.take i, matchVar .insensitive s vk = false) →
      from_str .insensitive t name vs s = .ok i) ∧
    (∀ (t : Tier) (name : String) (vs : List LabeledVariant) (s : String),
      (∀ pr ∈ tests vs, s ≠ pr.2) →
      from_str .sensitive t name vs s = .error (invalidError t name s)) := by
  refine ⟨strEq_symm, ?_, ?_⟩
  · intro t name vs s u i vi hget hu hfold hearlier
    refine from_str_first .insensitive t name vs s i vi hget ?_ hearlier
    have hsu : strEq .insensitive s u = true := by
      simp only [strEq]
      exact beq_iff_eq.mpr hfold
    rcases hu with h | h
    · rw [matchVar, ← h, hsu]
      rfl
    · rw [matchVar, aliasMatch_of_mem .insensitive s u vi.aliases h hsu]
      simp
  · intro t name vs s hne
    rw [from_str_eq_find]
    have hnone : (tests vs).find? (fun pr => strEq .sensitive s pr.2) = none := by
      rw [List.find?_eq_none]
      intro pr hpr
      simp only [strEq]
      intro hbeq
      exact hne pr hpr (beq_iff_eq.mp hbeq)
    rw [hnone]

/-- C3 witness: the variant Water("Water") parses from the differently-cased
input under the case-insensitive policy, and the same input fails under the
case-sensitive policy. -/
theorem case_policy_witness :
    from_str .insensitive .std "Type" [⟨"Water", "Water", []⟩] "wAtEr" = .ok 0 ∧
    from_str .sensitive .std "Type" [⟨"Water", "Water", []⟩] "wAtEr" =
      .error (invalidError .std "Type" "wAtEr") :=
  ⟨case_policy.2.1 .std "Type" [⟨"Water", "Water", []⟩] "wAtEr" "Water" 0 ⟨"Water", "Water", []⟩
      rfl (Or.inl rfl) (by decide) (by decide),
    case_policy.2.2 .std "Type" [⟨"Water", "Water", []⟩] "wAtEr" (by decide)⟩

/-- C4: for an input matching no canonical string and no alias the generated
parser fails with exactly the tier-dependent invalid-value error — a
formatted message carrying the enum name and the input when allocation is
available, the fixed literal otherwise — and it fails on no other branch:
every error it returns is this one, produced only when nothing matches. -/
theorem parse_unknown_input (p : CasePolicy) (t : Tier) (name : String)
    (vs : List LabeledVariant) (s : String) :
    ((∀ pr ∈ tests vs, strEq p s pr.2 = false) →
      from_str p t name vs s = .error (invalidError t name s)) ∧
    (∀ e, from_str p t name vs s = .error e →
      e = invalidError t name s ∧ ∀ pr ∈ tests vs, strEq p s pr.2 = false) ∧
    invalidError Tier.std name s = "invalid " ++ name ++ ": " ++ s ∧
    invalidError Tier.alloc name s = "invalid " ++ name ++ ": " ++ s ∧
    invalidError Tier.noAlloc name s = "invalid value" := by
  refine ⟨?_, ?_, rfl, rfl, rfl⟩
  · intro h
    rw [from_str_eq_find]
    have hnone : (tests vs).find? (fun pr => strEq p s pr.2) = none := by
      rw [List.find?_eq_none]
      intro pr hpr
      simp [h pr hpr]
    rw [hnone]
  · intro e he
    rw [from_str_eq_find] at he
    cases hf : (tests vs).find? (fun pr => strEq p s pr.2) with
    | some pr => rw [hf] at he; exact Except.noConfusion he
    | none =>
      rw [hf] at he
      refine ⟨?_, ?_⟩
      · have he2 : (Except.error (invalidError t name s) : Except String Nat) =
            Except.error e := he
        injection he2 with h2
        exact h2.symm
      · intro pr hpr
        have := List.find?_eq_none.mp hf pr hpr
        simpa using this

/-- C4 witness: the unknown input "bad" fails with the std-tier formatted
message carrying the enum name and the input. -/
theorem parse_unknown_input_witness :
    from_str .sensitive .std "Type" [⟨"Grass", "Grass", ["Leaf"]⟩] "bad" =
      .error (invalidError .std "Type" "bad") ∧
    invalidError .std "Type" "bad" = "invalid Type: bad" :=
  ⟨(parse_unknown_input .sensitive .std "Type" [⟨"Grass", "Grass", ["Leaf"]⟩] "bad").1
      (by decide),
    by decide⟩

/-- C5: the generated Display implementation passes the canonical string to
write as a format string, so a canonical string containing brace characters
is not rendered verbatim: a canonical string of two opening braces renders
as one brace character, and a canonical string containing a placeholder
does not render as any fixed string at all; rendering is the identity only
on brace-free canonical strings such as "Grass". -/
theorem render_format_string_bug :
    render ⟨"V", "\x7b\x7b", []⟩ = some "\x7b" ∧
    some "\x7b" ≠ some "\x7b\x7b" ∧
    render ⟨"W", "\x7ba\x7d", []⟩ = none ∧
    render ⟨"Grass", "Grass", []⟩ = some "Grass" := by
  refine ⟨rfl, fun h => ?_, rfl, rfl⟩
  injection h with h2
  exact absurd h2 (by decide)

end StringEnum

namespace StringEnum

/-- C6: labeled-mode input parsing fails when the declaration is not an
enum, when the enum has no variants, when any variant is not unit-shaped,
and when any variant carries no well-formed canonical-string annotation;
when it succeeds, the resulting variant list is non-empty and every variant
is unit-shaped with a present canonical string. -/
theorem labeled_shape_validation (d : DeriveInput) :
    ((d.data = DeriveData.structData ∨ d.data = DeriveData.unionData) →
      LabeledStringInput.parse d = .error "input must be an enum") ∧
    (d.data = DeriveData.enumData [] →
      LabeledStringInput.parse d = .error "enum must have at least one variant") ∧
    (∀ vs v, d.data = DeriveData.enumData vs → v ∈ vs → v.fields ≠ FieldsShape.unit →
      ∃ e, LabeledStringInput.parse d = .error e) ∧
    (∀ vs v, d.data = DeriveData.enumData vs → v ∈ vs → rawHasCanonical v = false →
      ∃ e, LabeledStringInput.parse d = .error e) ∧
    (∀ out, LabeledStringInput.parse d = .ok out →
      out.variants ≠ [] ∧ ∀ w ∈ out.variants,
        w.fields = FieldsShape.unit ∧ w.attrs.string.isSome = true) := by
  refine ⟨?_, ?_, ?_, ?_, ?_⟩
  · rintro (h | h) <;> simp [LabeledStringInput.parse, Input.parse, h]
  · intro h
    simp [LabeledStringInput.parse, Input.parse, h, parseVariants]
  · intro vs v hd hv hne
    cases hp : LabeledStringInput.parse d with
    | error e => exact ⟨e, rfl⟩
    | ok out =>
      exfalso
      obtain ⟨vs2, hd2, hpv, _, hunit, _⟩ := labeled_parse_ok d out hp
      rw [hd] at hd2
      injection hd2 with hvs
      subst hvs
      obtain ⟨w, hw, _, hfields, _⟩ := parseVariants_mem vs out.variants hpv v hv
      exact hne (hfields ▸ hunit w hw)
  · intro vs v hd hv hnc
    cases hp : LabeledStringInput.parse d with
    | error e => exact ⟨e, rfl⟩
    | ok out =>
      exfalso
      obtain ⟨vs2, hd2, hpv, _, _, hsome⟩ := labeled_parse_ok d out hp
      rw [hd] at hd2
      injection hd2 with hvs
      subst hvs
      obtain ⟨w, hw, _, _, hattrs⟩ := parseVariants_mem vs out.variants hpv v hv
      rw [parse_variant_attrs] at hattrs
      have hnone : w.attrs.string = none := by
        refine pvaGo_string_none v.attrs ⟨none, []⟩ w.attrs ?_ hattrs
        intro m hm
        cases hb : isCanonicalAttr m
        · rfl
        · exfalso
          rw [rawHasCanonical] at hnc
          have hany : v.attrs.any isCanonicalAttr = true := List.any_eq_true.mpr ⟨m, hm, hb⟩
          rw [hany] at hnc
          exact Bool.noConfusion hnc
      have hs := hsome w hw
      rw [hnone] at hs
      exact Bool.noConfusion hs
  · intro out hp
    obtain ⟨vs, _, _, hne, hunit, hsome⟩ := labeled_parse_ok d out hp
    exact ⟨hne, fun w hw => ⟨hunit w hw, hsome w hw⟩⟩

/-- C6 witness: a struct is rejected as not an enum; an enum with no
variants is rejected as empty; an enum with a non-unit variant and an enum
whose variant has no string annotation are both rejected. -/
theorem labeled_shape_validation_witness :
    LabeledStringInput.parse ⟨"T", DeriveData.structData⟩ =
      .error "input must be an enum" ∧
    LabeledStringInput.parse ⟨"T", DeriveData.enumData []⟩ =
      .error "enum must have at least one variant" ∧
    (∃ e, LabeledStringInput.parse
      ⟨"T", DeriveData.enumData [⟨"V", [SynMeta.nameValue "string" (AttrValue.strLit "v")],
        FieldsShape.named⟩]⟩ = .error e) ∧
    (∃ e, LabeledStringInput.parse
      ⟨"T", DeriveData.enumData [⟨"V", [], FieldsShape.unit⟩]⟩ = .error e) :=
  ⟨(labeled_shape_validation ⟨"T", DeriveData.structData⟩).1 (Or.inl rfl),
    (labeled_shape_validation ⟨"T", DeriveData.enumData []⟩).2.1 rfl,
    (labeled_shape_validation _).2.2.1 _ ⟨"V", [SynMeta.nameValue "string" (AttrValue.strLit "v")],
      FieldsShape.named⟩ rfl (by simp) (by decide),
    (labeled_shape_validation _).2.2.2.1 _ ⟨"V", [], FieldsShape.unit⟩ rfl (by simp) rfl⟩

/-- C7: a string or alias annotation whose value is not a string literal
makes attribute parsing fail with a message naming an offending string or
alias attribute; when every string and alias annotation carries a string
literal, parsing succeeds and yields the value of the last string
annotation, if any, and the alias values in declaration order. -/
theorem attr_string_literal (attrs : List SynMeta) :
    (∀ n v, SynMeta.nameValue n v ∈ attrs → (n = "string" ∨ n = "alias") →
      isStrLit v = false →
      ∃ n2 v2, (n2 = "string" ∨ n2 = "alias") ∧
        SynMeta.nameValue n2 v2 ∈ attrs ∧ isStrLit v2 = false ∧
        parse_variant_attrs attrs =
          .error ("\"" ++ n2 ++ "\" attribute must be a string literal")) ∧
    ((∀ m ∈ attrs, stringAliasOk m = true) →
      parse_variant_attrs attrs = .ok ⟨lastString attrs, aliasValues attrs⟩) := by
  constructor
  · intro n v hm hn hv
    have hb : badName (SynMeta.nameValue n v) = some n := badName_of_bad n v hn hv
    obtain ⟨n2, hfb⟩ := firstBad_isSome_of_mem attrs _ n hm hb
    obtain ⟨m2, hm2, hb2⟩ := firstBad_mem attrs n2 hfb
    obtain ⟨hn2, v2, hmv, hv2⟩ := badName_some_spec m2 n2 hb2
    subst hmv
    refine ⟨n2, v2, hn2, hm2, hv2, ?_⟩
    rw [parse_variant_attrs]
    exact pvaGo_err attrs _ n2 hfb
  · exact parse_variant_attrs_ok attrs

/-- C7 witness: an alias annotation with a non-string value is rejected
with a message naming the attribute, and a well-formed annotation list
parses to its canonical string and aliases. -/
theorem attr_string_literal_witness :
    (∃ n2 v2, (n2 = "string" ∨ n2 = "alias") ∧
      SynMeta.nameValue n2 v2 ∈ [SynMeta.nameValue "alias" AttrValue.nonStrLit] ∧
      isStrLit v2 = false ∧
      parse_variant_attrs [SynMeta.nameValue "alias" AttrValue.nonStrLit] =
        .error ("\"" ++ n2 ++ "\" attribute must be a string literal")) ∧
    parse_variant_attrs [SynMeta.nameValue "string" (AttrValue.strLit "Fire"),
        SynMeta.nameValue "alias" (AttrValue.strLit "Flame"),
        SynMeta.nameValue "alias" (AttrValue.strLit "Hot")] =
      .ok ⟨some "Fire", ["Flame", "Hot"]⟩ :=
  ⟨(attr_string_literal [SynMeta.nameValue "alias" AttrValue.nonStrLit]).1 "alias"
      AttrValue.nonStrLit (by simp) (Or.inr rfl) rfl,
    (attr_string_literal [SynMeta.nameValue "string" (AttrValue.strLit "Fire"),
        SynMeta.nameValue "alias" (AttrValue.strLit "Flame"),
        SynMeta.nameValue "alias" (AttrValue.strLit "Hot")]).2 (by decide)⟩

/-- C8: the custom-mode deserializer hands the string delivered by the
framework to the caller-supplied parse function and adds no matching logic
of its own: on success it returns that function's value unchanged, and on
any failure it raises the framework's invalid-value error carrying the
original input string and the expecting description built from the enum
name. -/
theorem custom_mode_wrapper {ε α : Type} (enumName : String)
    (fromStrFn : String → Except ε α) (v : String) :
    (∀ x, fromStrFn v = .ok x → deserialize_custom enumName fromStrFn v = .ok x) ∧
    (∀ e, fromStrFn v = .error e →
      deserialize_custom enumName fromStrFn v =
        .error ⟨v, "a valid " ++ enumName ++ " string value"⟩) := by
  constructor
  · intro x hx
    rw [deserialize_custom, visit_str, hx]
  · intro e he
    rw [deserialize_custom, visit_str, he]
    rfl

/-- C8 witness: a concrete parse function is passed through unchanged on
success, and its failure on the input "Q" becomes the invalid-value error
carrying "Q" and the expecting description for the enum Rotation. -/
theorem custom_mode_wrapper_witness :
    deserialize_custom "Rotation"
        (fun s => if s = "L" then Except.ok 0 else Except.error "invalid rotation") "L" =
      .ok 0 ∧
    deserialize_custom "Rotation"
        (fun s => if s = "L" then Except.ok 0 else Except.error "invalid rotation") "Q" =
      .error ⟨"Q", "a valid Rotation string value"⟩ :=
  ⟨(custom_mode_wrapper "Rotation"
      (fun s => if s = "L" then Except.ok 0 else Except.error "invalid rotation") "L").1 0 rfl,
    (custom_mode_wrapper "Rotation"
      (fun s => if s = "L" then Except.ok 0 else Except.error "invalid rotation") "Q").2
      "invalid rotation" rfl⟩

/-- C9: several string annotations on one variant are accepted without an
error, and the last one in declaration order becomes the canonical string:
appending a further string annotation to any well-formed annotation list
overwrites whatever canonical string the earlier annotations produced. -/
theorem multiple_string_attrs (attrs : List SynMeta) (s : String)
    (hok : ∀ m ∈ attrs, stringAliasOk m = true) :
    parse_variant_attrs (attrs ++ [SynMeta.nameValue "string" (AttrValue.strLit s)]) =
      .ok ⟨some s, aliasValues attrs⟩ := by
  have hok2 : ∀ m ∈ attrs ++ [SynMeta.nameValue "string" (AttrValue.strLit s)],
      stringAliasOk m = true := by
    intro m hm
    rcases List.mem_append.mp hm with h | h
    · exact hok m h
    · rw [List.mem_singleton.mp h]
      rfl
  rw [parse_variant_attrs_ok _ hok2, lastString_append_string, aliasValues_append_string]

/-- C9 witness: a variant with the two annotations string = "a" and
string = "b" parses without error to the canonical string "b". -/
theorem multiple_string_attrs_witness :
    parse_variant_attrs [SynMeta.nameValue "string" (AttrValue.strLit "a"),
        SynMeta.nameValue "string" (AttrValue.strLit "b")] = .ok ⟨some "b", []⟩ :=
  multiple_string_attrs [SynMeta.nameValue "string" (AttrValue.strLit "a")] "b" (by decide)

/-- C10: annotations that are not in name-value form — bare paths and list
forms, whatever their name — are skipped silently by attribute parsing,
raising no error and contributing no canonical string or alias; a unit
variant whose only string annotation is in list form is therefore rejected
by labeled-mode parsing with the missing-string error, not a malformed-
attribute error. -/
theorem non_name_value_skipped :
    (∀ (n : String) (attrs : List SynMeta),
      parse_variant_attrs (SynMeta.path n :: attrs) = parse_variant_attrs attrs) ∧
    (∀ (n : String) (attrs : List SynMeta),
      parse_variant_attrs (SynMeta.list n :: attrs) = parse_variant_attrs attrs) ∧
    (∀ ename vname : String,
      LabeledStringInput.parse
          ⟨ename, DeriveData.enumData [⟨vname, [SynMeta.list "string"], FieldsShape.unit⟩]⟩ =
        .error "all variants must have \"string\" attribute") :=
  ⟨fun _ _ => rfl, fun _ _ => rfl, fun _ _ => rfl⟩

end StringEnum
